import Mathlib

/-!
Verification of the retrieval core of `agentic-playwright`.

Shallow embedding of:
- `chunkText` (document loaders): sentence-based chunking with word overlap;
- `VectorStore.addDocuments` / `VectorStore.search` (vectorStore.ts);
- `Retriever.retrieve` / `retrieveMultiple` / `retrieveWithExpansion`,
  `extractCitations`, `formatContext` (retriever.ts).

JavaScript strings are modelled by Lean `String` (length = code-unit count
agrees on the characters used here), numbers carrying relevance scores by `ℚ`,
JS truthiness of strings/numbers/options is modelled explicitly where the code
relies on it (`||`, `if (x)`), and the ChromaDB collection — an external
dependency — is modelled by an oracle (`SearchIndex`) respectively by an
explicit query-response record (`QueryResponse`).
-/

/-! ## Small JS-style string helpers (explicit, kernel-computable) -/

/-- Characters matched by the JS regex class `\s` (the ASCII part; the inputs
considered here contain no exotic Unicode whitespace). -/
def isJsWs (c : Char) : Bool :=
  c = ' ' || c = '\t' || c = '\n' || c = '\r' || c = '\x0b' || c = '\x0c'

/-- Terminal sentence punctuation, the class `[.!?]` of `chunkText`. -/
def isTerminalPunct (c : Char) : Bool :=
  c = '.' || c = '!' || c = '?'

/-- JS `String.prototype.trim`. -/
def jsTrim (s : String) : String :=
  (((s.toList.dropWhile isJsWs).reverse.dropWhile isJsWs).reverse).asString

/-- JS `Array.prototype.join(sep)`. -/
def joinSep (sep : String) : List String → String
  | [] => ""
  | [x] => x
  | x :: y :: xs => x ++ sep ++ joinSep sep (y :: xs)

def splitOnSpaceAux : List Char → List Char → List String
  | acc, [] => [acc.reverse.asString]
  | acc, c :: cs =>
    if c = ' ' then acc.reverse.asString :: splitOnSpaceAux [] cs
    else splitOnSpaceAux (c :: acc) cs

/-- JS `str.split(' ')`: split on every single space character (empty pieces
are kept, exactly as in JS). -/
def splitOnSpace (s : String) : List String :=
  splitOnSpaceAux [] s.toList

/-- Worker for `splitSentences`; `fuel` only drives structural recursion and is
always at least the length of the character list, so the fuel-exhausted branch
is unreachable. -/
def splitSentencesAux : Nat → List Char → List Char → List String
  | _, acc, [] => [acc.reverse.asString]
  | _, acc, [c] => [(c :: acc).reverse.asString]
  | 0, acc, cs => [(acc.reverse ++ cs).asString]
  | fuel + 1, acc, c :: c2 :: cs =>
    if isTerminalPunct c && isJsWs c2 then
      acc.reverse.asString :: splitSentencesAux fuel [] ((c2 :: cs).dropWhile isJsWs)
    else
      splitSentencesAux fuel (c :: acc) (c2 :: cs)

/-- JS `text.split(/[.!?]\s+/)`: a separator is one terminal punctuation
character followed by a maximal nonempty whitespace run; separators are
removed, pieces (possibly empty) are returned in order. -/
def splitSentences (text : String) : List String :=
  splitSentencesAux text.toList.length [] text.toList

/-! ## Chunker (`chunkText`, document loaders) -/

/-- One iteration of the `for (const sentence of sentences)` loop of
`chunkText`.  State is `(chunks, currentChunk)`; `window` is the function that
selects the overlap words out of the closed buffer's space-split words. -/
def chunkStep (maxChunkSize : Nat) (window : List String → List String)
    (st : List String × String) (sentence : String) : List String × String :=
  let chunks := st.1
  let currentChunk := st.2
  if (currentChunk ++ sentence).length > maxChunkSize && currentChunk.length > 0 then
    (chunks ++ [jsTrim currentChunk],
      joinSep " " (window (splitOnSpace currentChunk)) ++ " " ++ sentence)
  else
    (chunks, if currentChunk.length = 0 then sentence else currentChunk ++ " " ++ sentence)

/-- The whole loop of `chunkText` plus the final flush of a non-empty buffer. -/
def chunkCore (maxChunkSize : Nat) (window : List String → List String)
    (sentences : List String) : List String :=
  let st := sentences.foldl (chunkStep maxChunkSize window) ([], "")
  if (jsTrim st.2).length > 0 then st.1 ++ [jsTrim st.2] else st.1

/-- JS `words.slice(-k)` for a natural `k`: note that `slice(-0)` is
`slice(0)`, i.e. the WHOLE array — this quirk is live in `chunkText` whenever
`Math.floor(overlap / 5) = 0`. -/
def jsSliceLast (k : Nat) (xs : List String) : List String :=
  if k = 0 then xs else xs.drop (xs.length - k)

/-- `chunkText(text, maxChunkSize, overlap)` from the document loaders
(defaults 1000 / 200 at the call sites). -/
def chunkText (text : String) (maxChunkSize : Nat) (overlap : Nat) : List String :=
  chunkCore maxChunkSize (jsSliceLast (overlap / 5)) (splitSentences text)

/-- The trailing `k` whitespace-delimited words (all of them when there are
fewer than `k`); for `k = 0` this is the empty list.  This is the overlap
window as the specification describes it. -/
def lastWords (k : Nat) (xs : List String) : List String :=
  xs.drop (xs.length - k)

/-- The chunking algorithm exactly as the claim states it: identical to the
code except that the overlap window is the trailing `⌊overlap/5⌋` words of the
closed buffer (hence empty when `⌊overlap/5⌋ = 0`). -/
def chunkTextClaim (text : String) (maxChunkSize : Nat) (overlap : Nat) : List String :=
  chunkCore maxChunkSize (lastWords (overlap / 5)) (splitSentences text)

/-- The amended behaviour for `⌊overlap/5⌋ = 0`: the next buffer is seeded
with ALL words of the closed buffer (JS `slice(-0) = slice(0)`). -/
def chunkTextWholeOverlap (text : String) (maxChunkSize : Nat) (_overlap : Nat) : List String :=
  chunkCore maxChunkSize (fun ws => ws) (splitSentences text)

/-! ## Data model (vectorStore.ts / retriever.ts) -/

/-- The `'jira' | 'confluence' | 'local'` union (`local` is a Lean keyword,
hence `localFile` for the `'local'` member). -/
inductive SourceType where
  | jira
  | confluence
  | localFile
deriving DecidableEq, Repr

/-- `metadata.sourceType.toUpperCase()` as used in `formatContext` headers. -/
def SourceType.upper : SourceType → String
  | .jira => "JIRA"
  | .confluence => "CONFLUENCE"
  | .localFile => "LOCAL"

/-- `Document['metadata']` restricted to the fields the retrieval core reads.
Optional string fields are `Option String` (absent/`undefined` = `none`). -/
structure DocMetadata where
  source : String
  sourceType : SourceType
  title : Option String := none
  url : Option String := none
  issueKey : Option String := none
  chunkIndex : Nat := 0
  timestamp : String := ""
deriving DecidableEq, Repr

/-- `SearchResult` of vectorStore.ts; `score` is a JS number, modelled by ℚ. -/
structure SearchResult where
  id : String
  content : String
  metadata : DocMetadata
  score : ℚ
deriving DecidableEq, Repr

/-- `Citation` of retriever.ts. -/
structure Citation where
  id : String
  source : String
  sourceType : SourceType
  title : Option String := none
  url : Option String := none
  relevanceScore : ℚ
deriving DecidableEq, Repr

/-- `RetrievalContext` of retriever.ts. -/
structure RetrievalContext where
  query : String
  results : List SearchResult
  citations : List Citation
  formattedContext : String
deriving DecidableEq, Repr

/-- The options record taken by `retrieve` / `retrieveMultiple` /
`retrieveWithExpansion`; `none` = the field is absent. -/
structure RetrieveOptions where
  limit : Option Nat := none
  minScore : Option ℚ := none
  sourceTypes : Option (List SourceType) := none
deriving DecidableEq, Repr

/-- The backing vector index, modelled as an oracle for
`vectorStore.search(query, limit, filter)`; the only filter shape the
retriever ever builds is `{ sourceType: { $in: sourceTypes } }`, carried here
as the `Option (List SourceType)` argument. -/
structure SearchIndex where
  search : String → Nat → Option (List SourceType) → List SearchResult

/-! ## Stable sorting (JS `Array.prototype.sort` with a numeric comparator is
stable; insertion sort below is stable for the same total preorder, and a
stable sort for a fixed total preorder is unique, so the two agree). -/

def insertOrdered (le : α → α → Bool) (x : α) : List α → List α
  | [] => [x]
  | y :: ys => if le x y then x :: y :: ys else y :: insertOrdered le x ys

def stableSortBy (le : α → α → Bool) (l : List α) : List α :=
  l.foldr (insertOrdered le) []

/-- Comparator `(a, b) => b.score - a.score` (score descending). -/
def scoreDescLe (a b : SearchResult) : Bool :=
  decide (b.score ≤ a.score)

/-- Comparator `(a, b) => b.relevanceScore - a.relevanceScore`. -/
def citScoreDescLe (a b : Citation) : Bool :=
  decide (b.relevanceScore ≤ a.relevanceScore)

/-- Comparator `(a, b) => a.metadata.chunkIndex - b.metadata.chunkIndex`. -/
def chunkIndexLe (a b : SearchResult) : Bool :=
  decide (a.metadata.chunkIndex ≤ b.metadata.chunkIndex)

/-! ## Citation extraction (`Retriever.extractCitations`) -/

/-- The `Citation` seeded by the first occurrence of a source. -/
def citationOf (r : SearchResult) : Citation :=
  { id := r.id
    source := r.metadata.source
    sourceType := r.metadata.sourceType
    title := r.metadata.title
    url := r.metadata.url
    relevanceScore := r.score }

/-- One iteration of the `for (const result of results)` loop over the
insertion-ordered `citationMap` (modelled as an association list in insertion
order, keyed by `c.source = result.metadata.source`). -/
def insertCitation (m : List Citation) (r : SearchResult) : List Citation :=
  if m.any (fun c => decide (c.source = r.metadata.source)) then
    m.map (fun c =>
      if c.source = r.metadata.source then
        (if r.score > c.relevanceScore then { c with relevanceScore := r.score } else c)
      else c)
  else
    m ++ [citationOf r]

/-- The fully built `citationMap`, values in insertion order. -/
def citMap (results : List SearchResult) : List Citation :=
  results.foldl insertCitation []

/-- `Retriever.extractCitations`. -/
def extractCitations (results : List SearchResult) : List Citation :=
  stableSortBy citScoreDescLe (citMap results)

/-! ## Context formatting (`Retriever.formatContext`) -/

/-- JS `x || fallback` for strings (`""` is falsy). -/
def jsOrString (o : Option String) (fallback : String) : String :=
  match o with
  | none => fallback
  | some s => if s.length = 0 then fallback else s

/-- `if (metadata.url) header += '\n**URL**: ' + metadata.url` and the
analogous `issueKey` line. -/
def jsOptLine (label : String) (o : Option String) : String :=
  match o with
  | none => ""
  | some v => if v.length = 0 then "" else "\n" ++ label ++ v

/-- The body of the `for (const [source, sourceResults] of groupedResults)`
loop: header from the group's first result, chunk contents sorted by stored
chunk index and joined by a blank line. -/
def formatSection (source : String) (sourceResults : List SearchResult) : String :=
  match sourceResults with
  | [] => ""
  | firstResult :: _ =>
    let md := firstResult.metadata
    let header := "### " ++ md.sourceType.upper ++ ": " ++ jsOrString md.title source
      ++ jsOptLine "**URL**: " md.url
      ++ jsOptLine "**Issue**: " md.issueKey
    let content :=
      joinSep "\n\n" ((stableSortBy chunkIndexLe sourceResults).map (fun r => r.content))
    header ++ "\n\n" ++ content

/-- One step of building `groupedResults` (a `Map<string, SearchResult[]>`,
insertion-ordered, appending each result to its source's bucket). -/
def groupInsert (m : List (String × List SearchResult)) (r : SearchResult) :
    List (String × List SearchResult) :=
  if m.any (fun p => decide (p.1 = r.metadata.source)) then
    m.map (fun p => if p.1 = r.metadata.source then (p.1, p.2 ++ [r]) else p)
  else
    m ++ [(r.metadata.source, [r])]

/-- `groupedResults` in insertion (first-seen) order. -/
def groupBySource (results : List SearchResult) : List (String × List SearchResult) :=
  results.foldl groupInsert []

/-- `Retriever.formatContext`. -/
def formatContext (results : List SearchResult) : String :=
  if results.length = 0 then "No relevant context found."
  else
    joinSep "\n\n---\n\n"
      ((groupBySource results).map (fun p => formatSection p.1 p.2))

/-! ## Retrieval façade (`Retriever.retrieve` and friends) -/

/-- JS `x || d` for an optional number: `undefined` AND `0` are falsy.  This is
the truncation bound `options.limit || 10` of `retrieveWithExpansion` (and
`|| 15` of `retrieveMultiple`). -/
def jsOrNat (o : Option Nat) (d : Nat) : Nat :=
  match o with
  | none => d
  | some n => if n = 0 then d else n

/-- `Retriever.retrieve(query, options)`: search at `limit` (default 10),
keep `score >= minScore` (default 0.3), derive citations and formatting.
The filter passed to the index is the optional source-type restriction. -/
def retrieve (idx : SearchIndex) (query : String) (opts : RetrieveOptions) :
    RetrievalContext :=
  let limit := opts.limit.getD 10
  let minScore := opts.minScore.getD (mkRat 3 10)
  let results := idx.search query limit opts.sourceTypes
  let filteredResults := results.filter (fun r => decide (minScore ≤ r.score))
  { query := query
    results := filteredResults
    citations := extractCitations filteredResults
    formattedContext := formatContext filteredResults }

/-- One step of `new Map(allResults.map(r => [r.id, r]))`: re-setting an
existing key keeps its insertion position but OVERWRITES its value. -/
def mapInsertResult (m : List (String × SearchResult)) (r : SearchResult) :
    List (String × SearchResult) :=
  if m.any (fun p => decide (p.1 = r.id)) then
    m.map (fun p => if p.1 = r.id then (p.1, r) else p)
  else
    m ++ [(r.id, r)]

/-- `Array.from(new Map(allResults.map(r => [r.id, r])).values())`. -/
def dedupById (allResults : List SearchResult) : List SearchResult :=
  (allResults.foldl mapInsertResult []).map (fun p => p.2)

/-- `Retriever.retrieveMultiple(queries, options)`. -/
def retrieveMultiple (idx : SearchIndex) (queries : List String)
    (opts : RetrieveOptions) : RetrievalContext :=
  let contexts := queries.map (fun q => retrieve idx q opts)
  let allResults := (contexts.map (fun ctx => ctx.results)).flatten
  let uniqueResults := dedupById allResults
  let sorted := stableSortBy scoreDescLe uniqueResults
  let limitedResults := sorted.take (jsOrNat opts.limit 15)
  { query := joinSep " | " queries
    results := limitedResults
    citations := extractCitations limitedResults
    formattedContext := formatContext limitedResults }

/-- The contexts `retrieveWithExpansion` fetches for its expansion queries:
`this.retrieve(expansion, { ...options, limit: 5 })`. -/
def expansionContexts (idx : SearchIndex) (expansions : List String)
    (opts : RetrieveOptions) : List RetrievalContext :=
  expansions.map (fun e => retrieve idx e { opts with limit := some 5 })

/-- `Retriever.retrieveWithExpansion(query, expansions, options)`. -/
def retrieveWithExpansion (idx : SearchIndex) (query : String)
    (expansions : List String) (opts : RetrieveOptions) : RetrievalContext :=
  let mainContext := retrieve idx query opts
  let allResults :=
    ((mainContext :: expansionContexts idx expansions opts).map
      (fun ctx => ctx.results)).flatten
  let uniqueResults := dedupById allResults
  let sorted := stableSortBy scoreDescLe uniqueResults
  let limitedResults := sorted.take (jsOrNat opts.limit 10)
  { query := query
    results := limitedResults
    citations := extractCitations limitedResults
    formattedContext := formatContext limitedResults }

/-! ## `VectorStore.search`: building results from a ChromaDB query response

`collection.query` is external (ChromaDB).  Its response for the single query
text sent is modelled by `QueryResponse` (the `[0]`-indexed slices of the raw
response).  Chroma's nearest-neighbour contract returns the closest documents
first with their DISTANCES in ascending order. -/

structure QueryResponse where
  ids : List String
  documents : List (Option String)
  metadatas : List DocMetadata
  distances : Option (List ℚ)
deriving Repr

/-- Placeholder for a metadata slot missing from the response (the code casts
`results.metadatas?.[0]?.[i]` unchecked). -/
def emptyMetadata : DocMetadata :=
  { source := "", sourceType := .localFile }

/-- `results.distances?.[0]?.[i] || 0`: an absent distances array, an
out-of-range index, and a zero distance all yield `0`. -/
def respScore (resp : QueryResponse) (i : Nat) : ℚ :=
  match resp.distances with
  | none => 0
  | some ds => ds.getD i 0

/-- The result-assembly loop of `VectorStore.search` (vectorStore.ts lines
140–156): empty `ids` short-circuits to `[]`, otherwise one `SearchResult`
per id, with `score` copied VERBATIM from the response's distances. -/
def searchOfResponse (resp : QueryResponse) : List SearchResult :=
  if resp.ids.isEmpty then []
  else
    (List.range resp.ids.length).map (fun i =>
      { id := resp.ids.getD i ""
        content := (resp.documents.getD i none).getD ""
        metadata := resp.metadatas.getD i emptyMetadata
        score := respScore resp i })

/-! ## `VectorStore.addDocuments`: metadata sanitisation

JS runtime values that can sit in a metadata map are modelled by `JsValue`
(objects as key/value chains, arrays as element chains, so that all recursion
stays structural). -/

inductive JsValue where
  | str (s : String)
  | num (q : ℚ)
  | bool (b : Bool)
  | null
  | undef
  | emptyObj
  | emptyArr
  | objCons (key : String) (v : JsValue) (rest : JsValue)
  | arrCons (v : JsValue) (rest : JsValue)
deriving DecidableEq, Repr

/-- The scalar values ChromaDB metadata accepts
(`Record<string, string | number | boolean>`). -/
inductive ScalarValue where
  | str (s : String)
  | num (q : ℚ)
  | bool (b : Bool)
deriving DecidableEq, Repr

/-- `typeof v === 'string' | 'number' | 'boolean'`. -/
def isScalar : JsValue → Option ScalarValue
  | .str s => some (.str s)
  | .num q => some (.num q)
  | .bool b => some (.bool b)
  | _ => none

/-- Model of the external builtin `JSON.stringify` on the (finite, acyclic)
values of `JsValue`: some fixed deterministic serialisation.  No claim here
depends on the exact text, only on non-scalar values being coerced to SOME
string, so the rendering below keeps to a simple structural scheme. -/
def stringifyJson : JsValue → String
  | .str s => "\"" ++ s ++ "\""
  | .num q => toString q
  | .bool b => if b then "true" else "false"
  | .null => "null"
  | .undef => "undefined"
  | .emptyObj => "\x7b\x7d"
  | .emptyArr => "[]"
  | .objCons k v rest => "\x7b" ++ k ++ ": " ++ stringifyJson v ++ "; " ++ stringifyJson rest ++ "\x7d"
  | .arrCons v rest => "[" ++ stringifyJson v ++ "; " ++ stringifyJson rest ++ "]"

/-- The per-entry body of the sanitisation loop in `addDocuments`:
`null`/`undefined` entries are SKIPPED (`continue`), scalars kept as they are,
anything else replaced by its `JSON.stringify` text. -/
def sanitizeEntry : JsValue → Option ScalarValue
  | .null => none
  | .undef => none
  | .str s => some (.str s)
  | .num q => some (.num q)
  | .bool b => some (.bool b)
  | v => some (.str (stringifyJson v))

/-- The whole `for (const [k, v] of Object.entries(doc.metadata))` loop
(order-preserving; an entry is dropped exactly when `sanitizeEntry` skips). -/
def sanitizeMetadata (entries : List (String × JsValue)) :
    List (String × ScalarValue) :=
  entries.filterMap (fun p => (sanitizeEntry p.2).map (fun sv => (p.1, sv)))

/-- An ingested document as `addDocuments` receives it: arbitrary JS metadata
map (as an entry list in object-key order). -/
structure RawDocument where
  id : String
  content : String
  metadata : List (String × JsValue)
deriving DecidableEq, Repr

/-- The single write `collection.add({ids, documents, metadatas})`. -/
structure AddCall where
  ids : List String
  documents : List String
  metadatas : List (List (String × ScalarValue))
deriving DecidableEq, Repr

/-- `VectorStore.addDocuments`: `none` = no store write performed (the early
return on an empty batch); `some call` = the one `collection.add` issued. -/
def addDocuments (docs : List RawDocument) : Option AddCall :=
  if docs.length = 0 then none
  else
    some { ids := docs.map (fun d => d.id)
           documents := docs.map (fun d => d.content)
           metadatas := docs.map (fun d => sanitizeMetadata d.metadata) }

/-! ## Concrete fixtures used by counterexamples and witnesses -/

/-- Chunk X as the primary query returns it (score 0.9). -/
def chunkX90 : SearchResult :=
  { id := "X", content := "x text"
    metadata := { source := "S", sourceType := .jira }, score := mkRat 9 10 }

/-- Chunk X as the expansion query returns it (score 0.85). -/
def chunkX85 : SearchResult := { chunkX90 with score := mkRat 17 20 }

/-- Chunk Y, returned by the expansion query only (score 0.6). -/
def chunkY60 : SearchResult :=
  { id := "Y", content := "y text"
    metadata := { source := "T", sourceType := .confluence }, score := mkRat 3 5 }

/-- An index oracle realising Scenario C and honouring the at-most-`limit`
contract of a nearest-neighbour search. -/
def limitedIndex : SearchIndex :=
  ⟨fun q n _ =>
    (if q = "primary" then [chunkX90]
     else if q = "exp" then [chunkX85, chunkY60]
     else []).take n⟩

/-- An index oracle whose collection is empty. -/
def emptyIndex : SearchIndex := ⟨fun _ _ _ => []⟩

/-! ## Claim C1 — Scenario C for `retrieveWithExpansion` -/

/-- Claim C1, counterexample.  In Scenario C (primary query returns X at 0.9,
the expansion returns X at 0.85 plus Y at 0.6, `limit = 10` by default) the
output is NOT `[X at score 0.9, Y]`: the id-keyed `Map` dedup keeps the LAST
occurrence of a duplicated id, so X survives with the expansion's copy. -/
theorem retrieveWithExpansion_scenarioC_refuted :
    (retrieveWithExpansion limitedIndex "primary" ["exp"] {}).results ≠
      [chunkX90, chunkY60] := by
  decide

/-- Claim C1, amended.  Scenario C actually yields `[X at score 0.85, Y at
0.6]` — X appears exactly once, carrying the expansion's (last-seen) score
0.85 rather than the primary query's 0.9, and still sorts first. -/
theorem retrieveWithExpansion_scenarioC_actual :
    (retrieveWithExpansion limitedIndex "primary" ["exp"] {}).results =
      [chunkX85, chunkY60] := by
  decide

/-! ## Claim C2 — the chunking algorithm -/

/-- Claim C2, counterexample.  With `overlap = 0` the claimed algorithm seeds
the post-split buffer with `⌊0/5⌋ = 0` trailing words, but `chunkText` uses
`words.slice(-0)`, which is the WHOLE word array, so the second chunk of this
input repeats the entire first chunk. -/
theorem chunkText_zero_overlap_refutes_claim :
    chunkText "aaaa bbbb. cccc" 8 0 ≠ chunkTextClaim "aaaa bbbb. cccc" 8 0 := by
  decide

/-- Claim C2, amended.  `chunkText` follows the claimed algorithm (split on
terminal punctuation plus whitespace, accumulate, close the chunk when buffer
plus triggering sentence exceed `maxSize`, seed the next buffer with the
trailing `⌊overlap/5⌋` words, keep oversized single sentences whole, flush the
tail) whenever `⌊overlap/5⌋ ≥ 1`, i.e. `overlap ≥ 5`; when `⌊overlap/5⌋ = 0`
the next buffer is instead seeded with ALL words of the closed chunk (the JS
`slice(-0) = slice(0)` quirk). -/
theorem chunkText_matches_claimed_algorithm (text : String) (maxChunkSize overlap : Nat) :
    (5 ≤ overlap →
      chunkText text maxChunkSize overlap = chunkTextClaim text maxChunkSize overlap) ∧
    (overlap < 5 →
      chunkText text maxChunkSize overlap = chunkTextWholeOverlap text maxChunkSize overlap) := by
  constructor
  · intro h5
    have hk : overlap / 5 ≠ 0 := by
      have hpos := Nat.div_pos h5 (by norm_num)
      omega
    unfold chunkText chunkTextClaim
    have hw : jsSliceLast (overlap / 5) = lastWords (overlap / 5) := by
      funext xs
      unfold jsSliceLast lastWords
      exact if_neg hk
    rw [hw]
  · intro h5
    have hk : overlap / 5 = 0 := Nat.div_eq_of_lt h5
    unfold chunkText chunkTextWholeOverlap
    have hw : jsSliceLast (overlap / 5) = fun xs => xs := by
      funext xs
      unfold jsSliceLast
      rw [hk]
      exact if_pos rfl
    rw [hw]

/-- Witness for `chunkText_matches_claimed_algorithm` at concrete inputs on
both sides of the `overlap` threshold. -/
theorem chunkText_matches_claimed_algorithm_witness :
    chunkText "aaaa bbbb. cccc" 8 200 = chunkTextClaim "aaaa bbbb. cccc" 8 200 ∧
    chunkText "aaaa bbbb. cccc" 8 0 = chunkTextWholeOverlap "aaaa bbbb. cccc" 8 0 :=
  ⟨(chunkText_matches_claimed_algorithm "aaaa bbbb. cccc" 8 200).1 (by decide),
   (chunkText_matches_claimed_algorithm "aaaa bbbb. cccc" 8 0).2 (by decide)⟩

/-! ## Claim C3 — higher-is-better ranking of `search` results -/

/-- A ChromaDB response as the nearest-neighbour contract delivers it: the
closest documents first, DISTANCES in ascending order. -/
def ascendingDistanceResponse : QueryResponse :=
  { ids := ["a", "b"]
    documents := [some "doc a", some "doc b"]
    metadatas := [{ source := "A", sourceType := .jira },
                  { source := "B", sourceType := .jira }]
    distances := some [mkRat 1 10, mkRat 1 2] }

/-- Claim C3, the divergence evaluated on the code.  `VectorStore.search`
copies the raw Chroma distances into `score`, so for a response holding the
nearest-first distances `[0.1, 0.5]` the returned scores are `[0.1, 0.5]` —
ascending, lower-is-better — and are NOT non-increasing: the first (most
relevant) result carries the LOWEST score, contradicting the fixed
higher-is-better convention the claim states (and which the rest of the code,
e.g. the `score >= minScore` filter, assumes). -/
theorem search_score_is_raw_distance_ascending :
    ((searchOfResponse ascendingDistanceResponse).map (fun r => r.score)) =
        [mkRat 1 10, mkRat 1 2] ∧
    ¬ List.Sorted (· ≥ ·)
        ((searchOfResponse ascendingDistanceResponse).map (fun r => r.score)) := by
  constructor
  · decide
  · decide

/-! ## Claim C8 — metadata coercion in `addDocuments` -/

/-- A document whose metadata consists of a single entry with a `null`
value. -/
def nullMetaDoc : RawDocument :=
  { id := "d1", content := "body", metadata := [("extra", .null)] }

/-- Claim C8, counterexample.  The single metadata entry `extra: null` of
`nullMetaDoc` is NOT stored: the sanitisation loop `continue`s over
`null`/`undefined` values, so the stored metadata map is empty although the
document carried one entry — the entry is dropped, not coerced. -/
theorem addDocuments_drops_null_entry :
    addDocuments [nullMetaDoc] =
      some { ids := ["d1"], documents := ["body"], metadatas := [[]] } ∧
    nullMetaDoc.metadata.length = 1 := by
  constructor
  · decide
  · decide

/-- Claim C8, amended.  `addDocuments` performs no store write on an empty
batch and exactly one write otherwise; within each stored metadata map,
scalar entries (string/number/boolean) are kept unchanged, every other entry
with a non-`null`, non-`undefined` value is serialised to a string rather
than rejected, and exactly the entries whose value is `null` or `undefined`
are dropped.  No metadata shape makes the call fail. -/
theorem addDocuments_metadata_coercion :
    addDocuments ([] : List RawDocument) = none ∧
    (∀ docs : List RawDocument, docs ≠ [] →
      addDocuments docs =
        some { ids := docs.map (fun d => d.id)
               documents := docs.map (fun d => d.content)
               metadatas := docs.map (fun d => sanitizeMetadata d.metadata) }) ∧
    (∀ (entries : List (String × JsValue)) (k : String) (v : JsValue) (sv : ScalarValue),
      (k, v) ∈ entries → isScalar v = some sv → (k, sv) ∈ sanitizeMetadata entries) ∧
    (∀ (entries : List (String × JsValue)) (k : String) (v : JsValue),
      (k, v) ∈ entries → isScalar v = none → v ≠ .null → v ≠ .undef →
      (k, ScalarValue.str (stringifyJson v)) ∈ sanitizeMetadata entries) ∧
    (∀ entries : List (String × JsValue),
      (sanitizeMetadata entries).length =
        (entries.filter (fun p => decide (p.2 ≠ .null) && decide (p.2 ≠ .undef))).length) := by
  refine ⟨rfl, ?_, ?_, ?_, ?_⟩
  · intro docs hne
    unfold addDocuments
    rw [if_neg (by simpa using fun h => hne (List.length_eq_zero.mp h))]
  · intro entries k v sv hmem hscalar
    have hsan : sanitizeEntry v = some sv := by
      cases v <;> simp_all [isScalar, sanitizeEntry]
    exact List.mem_filterMap.mpr ⟨(k, v), hmem, by simp [hsan]⟩
  · intro entries k v hmem hnonscalar hnull hundef
    have hsan : sanitizeEntry v = some (ScalarValue.str (stringifyJson v)) := by
      cases v <;> simp_all [isScalar, sanitizeEntry]
    exact List.mem_filterMap.mpr ⟨(k, v), hmem, by simp [hsan]⟩
  · intro entries
    induction entries with
    | nil => rfl
    | cons p rest ih =>
      rcases p with ⟨k, v⟩
      have hcons : sanitizeMetadata ((k, v) :: rest) =
          (match sanitizeEntry v with
           | some sv => [(k, sv)]
           | none => []) ++ sanitizeMetadata rest := by
        cases hv : sanitizeEntry v <;> simp [sanitizeMetadata, hv]
      rw [hcons, List.filter_cons]
      cases v <;> simp [sanitizeEntry, ih]

/-- A document with one scalar and one object-valued metadata entry. -/
def mixedMetaDoc : RawDocument :=
  { id := "d2"
    content := "c"
    metadata := [("a", .str "x"), ("b", .emptyObj)] }

/-- Witness for `addDocuments_metadata_coercion`: a scalar entry survives
unchanged, and an object-valued entry is coerced to its serialised string. -/
theorem addDocuments_metadata_coercion_witness :
    addDocuments [mixedMetaDoc] =
      some { ids := ["d2"], documents := ["c"]
             metadatas := [sanitizeMetadata mixedMetaDoc.metadata] } ∧
    ("a", ScalarValue.str "x") ∈ sanitizeMetadata mixedMetaDoc.metadata ∧
    ("b", ScalarValue.str (stringifyJson .emptyObj)) ∈
      sanitizeMetadata mixedMetaDoc.metadata :=
  ⟨addDocuments_metadata_coercion.2.1 [mixedMetaDoc] (by decide),
   addDocuments_metadata_coercion.2.2.1 mixedMetaDoc.metadata
      "a" (.str "x") (.str "x") (by decide) (by decide),
   addDocuments_metadata_coercion.2.2.2.1 mixedMetaDoc.metadata
      "b" .emptyObj (by decide) (by decide) (by decide) (by decide)⟩

/-! ## Claim C9 — empty retrieval is not an error -/

/-- Claim C9.  Whenever the index search yields nothing that passes the
`minScore` filter, `retrieve` returns normally (it is a total function of the
search outcome — the only failures the code propagates are the index's own,
i.e. transport failures) with empty results, empty citations and the fixed
sentinel string. -/
theorem retrieve_empty_sentinel (idx : SearchIndex) (q : String)
    (opts : RetrieveOptions)
    (h : (idx.search q (opts.limit.getD 10) opts.sourceTypes).filter
          (fun r => decide (opts.minScore.getD (mkRat 3 10) ≤ r.score)) = []) :
    retrieve idx q opts =
      { query := q, results := [], citations := []
        formattedContext := "No relevant context found." } := by
  simp only [retrieve]
  rw [h]
  rfl

/-- Witness for `retrieve_empty_sentinel` on an empty collection. -/
theorem retrieve_empty_sentinel_witness :
    retrieve emptyIndex "q" {} =
      { query := "q", results := [], citations := []
        formattedContext := "No relevant context found." } :=
  retrieve_empty_sentinel emptyIndex "q" {} (by decide)

/-! ## Lemmas about the stable insertion sort -/

theorem mem_insertOrdered (le : α → α → Bool) (x a : α) (l : List α) :
    a ∈ insertOrdered le x l ↔ a ∈ x :: l := by
  induction l with
  | nil => simp [insertOrdered]
  | cons y ys ih =>
    unfold insertOrdered
    by_cases h : le x y
    · simp [h]
    · simp only [h, if_neg, Bool.false_eq_true, ite_false, List.mem_cons, ih]
      tauto

theorem perm_insertOrdered (le : α → α → Bool) (x : α) (l : List α) :
    (insertOrdered le x l).Perm (x :: l) := by
  induction l with
  | nil => exact List.Perm.refl _
  | cons y ys ih =>
    unfold insertOrdered
    by_cases h : le x y
    · simp [h]
    · simp only [h, Bool.false_eq_true, ite_false]
      exact (ih.cons y).trans (List.Perm.swap x y ys)

theorem perm_stableSortBy (le : α → α → Bool) (l : List α) :
    (stableSortBy le l).Perm l := by
  induction l with
  | nil => exact List.Perm.refl _
  | cons x xs ih =>
    have hstep : stableSortBy le (x :: xs) = insertOrdered le x (stableSortBy le xs) := rfl
    rw [hstep]
    exact (perm_insertOrdered le x (stableSortBy le xs)).trans (ih.cons x)

theorem mem_stableSortBy (le : α → α → Bool) (a : α) (l : List α) :
    a ∈ stableSortBy le l ↔ a ∈ l :=
  (perm_stableSortBy le l).mem_iff

theorem pairwise_insertOrdered (le : α → α → Bool)
    (htrans : ∀ a b c, le a b = true → le b c = true → le a c = true)
    (htot : ∀ a b, le a b = true ∨ le b a = true) (x : α) (l : List α)
    (h : l.Pairwise (fun a b => le a b = true)) :
    (insertOrdered le x l).Pairwise (fun a b => le a b = true) := by
  induction l with
  | nil => simp [insertOrdered]
  | cons y ys ih =>
    rcases List.pairwise_cons.mp h with ⟨hy, hys⟩
    unfold insertOrdered
    by_cases hxy : le x y
    · simp only [hxy, ite_true]
      refine List.pairwise_cons.mpr ⟨?_, h⟩
      intro b hb
      rcases List.mem_cons.mp hb with hb | hb
      · exact hb ▸ hxy
      · exact htrans x y b hxy (hy b hb)
    · simp only [hxy, Bool.false_eq_true, ite_false]
      refine List.pairwise_cons.mpr ⟨?_, ih hys⟩
      intro b hb
      rcases List.mem_cons.mp ((mem_insertOrdered le x b ys).mp hb) with hb2 | hb2
      · subst hb2
        rcases htot b y with hxy2 | hyx
        · exact absurd hxy2 hxy
        · exact hyx
      · exact hy b hb2

theorem pairwise_stableSortBy (le : α → α → Bool)
    (htrans : ∀ a b c, le a b = true → le b c = true → le a c = true)
    (htot : ∀ a b, le a b = true ∨ le b a = true) (l : List α) :
    (stableSortBy le l).Pairwise (fun a b => le a b = true) := by
  induction l with
  | nil => simp [stableSortBy]
  | cons x xs ih => exact pairwise_insertOrdered le htrans htot x (stableSortBy le xs) ih

theorem citScoreDescLe_trans (a b c : Citation)
    (h1 : citScoreDescLe a b = true) (h2 : citScoreDescLe b c = true) :
    citScoreDescLe a c = true := by
  simp only [citScoreDescLe, decide_eq_true_iff] at h1 h2 ⊢
  exact h2.trans h1

theorem citScoreDescLe_total (a b : Citation) :
    citScoreDescLe a b = true ∨ citScoreDescLe b a = true := by
  simp only [citScoreDescLe, decide_eq_true_iff]
  exact (le_total b.relevanceScore a.relevanceScore)

theorem scoreDescLe_trans (a b c : SearchResult)
    (h1 : scoreDescLe a b = true) (h2 : scoreDescLe b c = true) :
    scoreDescLe a c = true := by
  simp only [scoreDescLe, decide_eq_true_iff] at h1 h2 ⊢
  exact h2.trans h1

theorem scoreDescLe_total (a b : SearchResult) :
    scoreDescLe a b = true ∨ scoreDescLe b a = true := by
  simp only [scoreDescLe, decide_eq_true_iff]
  exact (le_total b.score a.score)

theorem chunkIndexLe_trans (a b c : SearchResult)
    (h1 : chunkIndexLe a b = true) (h2 : chunkIndexLe b c = true) :
    chunkIndexLe a c = true := by
  simp only [chunkIndexLe, decide_eq_true_iff] at h1 h2 ⊢
  exact h1.trans h2

theorem chunkIndexLe_total (a b : SearchResult) :
    chunkIndexLe a b = true ∨ chunkIndexLe b a = true := by
  simp only [chunkIndexLe, decide_eq_true_iff]
  exact (le_total a.metadata.chunkIndex b.metadata.chunkIndex)

/-! ## Invariant of the citationMap fold -/

/-- Predicate a fully processed prefix `rs` of results imposes on the
insertion-ordered `citationMap` contents `m`: one citation per source seen so
far, identity fields from the FIRST result of the source, score the maximum
over the source's results. -/
def CitInv (rs : List SearchResult) (m : List Citation) : Prop :=
  (m.map (fun c => c.source)).Nodup ∧
  (∀ s : String, (∃ c ∈ m, c.source = s) ↔ ∃ x ∈ rs, x.metadata.source = s) ∧
  (∀ c ∈ m, ∃ r, rs.find? (fun x => decide (x.metadata.source = c.source)) = some r ∧
      c.id = r.id ∧ c.title = r.metadata.title ∧ c.url = r.metadata.url ∧
      c.sourceType = r.metadata.sourceType ∧ c.source = r.metadata.source) ∧
  (∀ c ∈ m,
      c.relevanceScore ∈
        ((rs.filter (fun x => decide (x.metadata.source = c.source))).map (fun x => x.score)) ∧
      ∀ q ∈ ((rs.filter (fun x => decide (x.metadata.source = c.source))).map (fun x => x.score)),
        q ≤ c.relevanceScore)

/-- The update applied to an existing citation of the same source keeps every
identity field and raises the score to the maximum of the old score and the
new result's score. -/
theorem citInv_insert (rs : List SearchResult) (m : List Citation) (r : SearchResult)
    (h : CitInv rs m) : CitInv (rs ++ [r]) (insertCitation m r) := by
  obtain ⟨hnd, hiff, hid, hmax⟩ := h
  unfold insertCitation
  by_cases hany : (m.any fun c => decide (c.source = r.metadata.source)) = true
  · -- the source is already present: update in place
    rw [if_pos hany]
    have hupd : ∀ c : Citation,
        (if c.source = r.metadata.source then
          (if r.score > c.relevanceScore then { c with relevanceScore := r.score } else c)
         else c).source = c.source ∧
        (if c.source = r.metadata.source then
          (if r.score > c.relevanceScore then { c with relevanceScore := r.score } else c)
         else c).id = c.id ∧
        (if c.source = r.metadata.source then
          (if r.score > c.relevanceScore then { c with relevanceScore := r.score } else c)
         else c).title = c.title ∧
        (if c.source = r.metadata.source then
          (if r.score > c.relevanceScore then { c with relevanceScore := r.score } else c)
         else c).url = c.url ∧
        (if c.source = r.metadata.source then
          (if r.score > c.relevanceScore then { c with relevanceScore := r.score } else c)
         else c).sourceType = c.sourceType := by
      intro c
      by_cases h1 : c.source = r.metadata.source <;> by_cases h2 : r.score > c.relevanceScore <;>
        simp [h1, h2]
    refine ⟨?_, ?_, ?_, ?_⟩
    · -- sources unchanged under the update
      have : (m.map (fun c =>
          if c.source = r.metadata.source then
            (if r.score > c.relevanceScore then { c with relevanceScore := r.score } else c)
          else c)).map (fun c => c.source) = m.map (fun c => c.source) := by
        rw [List.map_map]
        exact List.map_congr_left (fun c _ => (hupd c).1)
      rw [this]
      exact hnd
    · intro s
      constructor
      · rintro ⟨c', hc', hs⟩
        rcases List.mem_map.mp hc' with ⟨c, hc, rfl⟩
        have hsrc : c.source = s := by rw [← (hupd c).1, hs]
        rcases (hiff s).mp ⟨c, hc, hsrc⟩ with ⟨x, hx, hxs⟩
        exact ⟨x, List.mem_append.mpr (Or.inl hx), hxs⟩
      · rintro ⟨x, hx, hs⟩
        rcases List.mem_append.mp hx with hx1 | hx1
        · rcases (hiff s).mpr ⟨x, hx1, hs⟩ with ⟨c, hc, hcs⟩
          refine ⟨_, List.mem_map.mpr ⟨c, hc, rfl⟩, ?_⟩
          rw [(hupd c).1, hcs]
        · -- the new element r: its source is already present in m
          have hxr := List.mem_singleton.mp hx1
          rw [hxr] at hs
          rcases List.any_eq_true.mp hany with ⟨c, hc, hcs⟩
          refine ⟨_, List.mem_map.mpr ⟨c, hc, rfl⟩, ?_⟩
          rw [(hupd c).1, decide_eq_true_iff.mp hcs, hs]
    · intro c' hc'
      rcases List.mem_map.mp hc' with ⟨c, hc, rfl⟩
      rcases hid c hc with ⟨r0, hfind, hid2, ht, hu, hst, hsrc⟩
      refine ⟨r0, ?_, ?_, ?_, ?_, ?_, ?_⟩
      · rw [List.find?_append, (hupd c).1, hfind]
        rfl
      · rw [(hupd c).2.1]; exact hid2
      · rw [(hupd c).2.2.1]; exact ht
      · rw [(hupd c).2.2.2.1]; exact hu
      · rw [(hupd c).2.2.2.2]; exact hst
      · rw [(hupd c).1]; exact hsrc
    · intro c' hc'
      rcases List.mem_map.mp hc' with ⟨c, hc, rfl⟩
      rcases hmax c hc with ⟨hmem, hbound⟩
      by_cases h1 : c.source = r.metadata.source
      · -- the updated citation: the filter gains exactly [r]
        have hfilt : ((rs ++ [r]).filter
              (fun x => decide (x.metadata.source = c.source))) =
            (rs.filter (fun x => decide (x.metadata.source = c.source))) ++ [r] := by
          rw [List.filter_append]
          simp [h1.symm]
        rw [(hupd c).1, hfilt, if_pos h1]
        by_cases h2 : r.score > c.relevanceScore
        · rw [if_pos h2]
          constructor
          · show r.score ∈ _
            simp
          · intro q hq
            show q ≤ r.score
            simp only [List.map_append, List.mem_append, List.map_cons, List.map_nil,
              List.mem_singleton] at hq
            rcases hq with hq | hq
            · exact le_of_lt (lt_of_le_of_lt (hbound q hq) h2)
            · exact le_of_eq hq
        · rw [if_neg h2]
          constructor
          · simp only [List.map_append, List.mem_append]
            exact Or.inl hmem
          · intro q hq
            simp only [List.map_append, List.mem_append, List.map_cons, List.map_nil,
              List.mem_singleton] at hq
            rcases hq with hq | hq
            · exact hbound q hq
            · rw [hq]
              exact le_of_not_lt h2
      · -- an untouched citation of a different source: the filter is unchanged
        have hfilt : ((rs ++ [r]).filter
              (fun x => decide (x.metadata.source = c.source))) =
            rs.filter (fun x => decide (x.metadata.source = c.source)) := by
          rw [List.filter_append]
          have hne : r.metadata.source ≠ c.source := fun h => h1 h.symm
          simp [hne]
        rw [(hupd c).1, hfilt, if_neg h1]
        exact ⟨hmem, hbound⟩
  · -- new source: append a fresh citation seeded from r
    rw [if_neg hany]
    have hnew : ∀ x ∈ rs, ¬ x.metadata.source = r.metadata.source := by
      intro x hx hs
      exact hany (List.any_eq_true.mpr
        (by
          rcases (hiff r.metadata.source).mpr ⟨x, hx, hs⟩ with ⟨c, hc, hcs⟩
          exact ⟨c, hc, decide_eq_true_iff.mpr hcs⟩))
    have hnotm : ∀ c ∈ m, c.source ≠ r.metadata.source := by
      intro c hc hs
      exact hany (List.any_eq_true.mpr ⟨c, hc, decide_eq_true_iff.mpr hs⟩)
    refine ⟨?_, ?_, ?_, ?_⟩
    · rw [List.map_append]
      rw [List.nodup_append]
      refine ⟨hnd, List.nodup_singleton _, ?_⟩
      intro s hs hs2
      rcases List.mem_map.mp hs with ⟨c, hc, rfl⟩
      simp only [List.map_cons, List.map_nil, List.mem_singleton, citationOf] at hs2
      exact hnotm c hc hs2
    · intro s
      constructor
      · rintro ⟨c, hc, hs⟩
        rcases List.mem_append.mp hc with hc | hc
        · rcases (hiff s).mp ⟨c, hc, hs⟩ with ⟨x, hx, hxs⟩
          exact ⟨x, List.mem_append.mpr (Or.inl hx), hxs⟩
        · have hcr := List.mem_singleton.mp hc
          rw [hcr] at hs
          exact ⟨r, List.mem_append.mpr (Or.inr (List.mem_singleton.mpr rfl)), by
            simpa [citationOf] using hs⟩
      · rintro ⟨x, hx, hs⟩
        rcases List.mem_append.mp hx with hx1 | hx1
        · rcases (hiff s).mpr ⟨x, hx1, hs⟩ with ⟨c, hc, hcs⟩
          exact ⟨c, List.mem_append.mpr (Or.inl hc), hcs⟩
        · have hxr := List.mem_singleton.mp hx1
          rw [hxr] at hs
          exact ⟨citationOf r, List.mem_append.mpr (Or.inr (List.mem_singleton.mpr rfl)), by
            simpa [citationOf] using hs⟩
    · intro c hc
      rcases List.mem_append.mp hc with hc | hc
      · rcases hid c hc with ⟨r0, hfind, hid2, ht, hu, hst, hsrc⟩
        exact ⟨r0, by rw [List.find?_append, hfind]; rfl, hid2, ht, hu, hst, hsrc⟩
      · rcases List.mem_singleton.mp hc with rfl
        refine ⟨r, ?_, rfl, rfl, rfl, rfl, rfl⟩
        have hnone : rs.find? (fun x => decide (x.metadata.source = (citationOf r).source)) = none := by
          rw [List.find?_eq_none]
          intro x hx
          simp only [citationOf, decide_eq_true_iff]
          exact hnew x hx
        rw [List.find?_append, hnone]
        simp [citationOf]
    · intro c hc
      rcases List.mem_append.mp hc with hc | hc
      · rcases hmax c hc with ⟨hmem, hbound⟩
        have hfilt : ((rs ++ [r]).filter
              (fun x => decide (x.metadata.source = c.source))) =
            rs.filter (fun x => decide (x.metadata.source = c.source)) := by
          rw [List.filter_append]
          have hne : r.metadata.source ≠ c.source := fun h => hnotm c hc h.symm
          simp [hne]
        rw [hfilt]
        exact ⟨hmem, hbound⟩
      · rcases List.mem_singleton.mp hc with rfl
        have hfilt : ((rs ++ [r]).filter
              (fun x => decide (x.metadata.source = (citationOf r).source))) = [r] := by
          rw [List.filter_append]
          have hnil : rs.filter (fun x => decide (x.metadata.source = (citationOf r).source)) = [] := by
            rw [List.filter_eq_nil_iff]
            intro x hx
            simp only [citationOf, decide_eq_true_iff]
            exact hnew x hx
          rw [hnil]
          simp [citationOf]
        rw [hfilt]
        simp [citationOf]

/-- The invariant holds of the fully built `citationMap`. -/
theorem citInv_citMap (rs : List SearchResult) : CitInv rs (citMap rs) := by
  induction rs using List.reverseRecOn with
  | nil =>
    refine ⟨List.nodup_nil, ?_, ?_, ?_⟩
    · intro s
      constructor
      · rintro ⟨c, hc, _⟩; cases hc
      · rintro ⟨x, hx, _⟩; cases hx
    · intro c hc; cases hc
    · intro c hc; cases hc
  | append_singleton rs r ih =>
    have hstep : citMap (rs ++ [r]) = insertCitation (citMap rs) r := by
      unfold citMap
      rw [List.foldl_append]
      rfl
    rw [hstep]
    exact citInv_insert rs (citMap rs) r ih

/-! ## Claims C6 and C10 — citation extraction -/

/-- Claim C6.  For every input list of search results, `extractCitations`
yields exactly one citation per distinct source id (no two citations share a
source, and a source has a citation iff it has a result), each citation's
score is the maximum score among that source's results (it is one of them and
bounds all of them — the first occurrence seeds it, later occurrences only
raise it), and the citations are sorted by score descending. -/
theorem extractCitations_unique_max_sorted (results : List SearchResult) :
    ((extractCitations results).map (fun c => c.source)).Nodup ∧
    (∀ s : String, (∃ c ∈ extractCitations results, c.source = s) ↔
        ∃ x ∈ results, x.metadata.source = s) ∧
    (∀ c ∈ extractCitations results,
      c.relevanceScore ∈
        ((results.filter (fun x => decide (x.metadata.source = c.source))).map
          (fun x => x.score)) ∧
      ∀ q ∈ ((results.filter (fun x => decide (x.metadata.source = c.source))).map
          (fun x => x.score)), q ≤ c.relevanceScore) ∧
    List.Sorted (· ≥ ·) ((extractCitations results).map (fun c => c.relevanceScore)) := by
  obtain ⟨hnd, hiff, _, hmax⟩ := citInv_citMap results
  have hperm : (extractCitations results).Perm (citMap results) :=
    perm_stableSortBy citScoreDescLe (citMap results)
  refine ⟨?_, ?_, ?_, ?_⟩
  · exact ((hperm.map (fun c => c.source)).nodup_iff).mpr hnd
  · intro s
    rw [← hiff s]
    constructor
    · rintro ⟨c, hc, hs⟩
      exact ⟨c, hperm.mem_iff.mp hc, hs⟩
    · rintro ⟨c, hc, hs⟩
      exact ⟨c, hperm.mem_iff.mpr hc, hs⟩
  · intro c hc
    exact hmax c (hperm.mem_iff.mp hc)
  · have hp := pairwise_stableSortBy citScoreDescLe citScoreDescLe_trans
      citScoreDescLe_total (citMap results)
    have hp2 : List.Pairwise (fun a b : Citation => b.relevanceScore ≤ a.relevanceScore)
        (extractCitations results) := by
      refine hp.imp ?_
      intro a b hab
      exact decide_eq_true_iff.mp hab
    exact List.pairwise_map.mpr hp2

/-- The one citation Scenario-like input `[chunkX90, chunkX85, chunkY60]`
produces for source `S`. -/
def citationS : Citation :=
  { id := "X", source := "S", sourceType := .jira, relevanceScore := mkRat 9 10 }

/-- Witness for `extractCitations_unique_max_sorted`. -/
theorem extractCitations_unique_max_sorted_witness :
    citationS.relevanceScore ∈
      (([chunkX90, chunkX85, chunkY60].filter
        (fun x => decide (x.metadata.source = citationS.source))).map (fun x => x.score)) :=
  ((extractCitations_unique_max_sorted [chunkX90, chunkX85, chunkY60]).2.2.1
    citationS (by decide)).1

/-- Claim C10.  Every extracted citation takes its identity fields (chunk id,
title, url — and source kind) from the FIRST result of its source in input
order (`find?` returns the first match), regardless of later higher-scoring
occurrences, which only contribute to `relevanceScore`. -/
theorem citation_identity_first_occurrence (results : List SearchResult) :
    ∀ c ∈ extractCitations results,
      ∃ r, results.find? (fun x => decide (x.metadata.source = c.source)) = some r ∧
        c.id = r.id ∧ c.title = r.metadata.title ∧ c.url = r.metadata.url ∧
        c.sourceType = r.metadata.sourceType ∧ c.source = r.metadata.source := by
  obtain ⟨_, _, hid, _⟩ := citInv_citMap results
  intro c hc
  exact hid c ((perm_stableSortBy citScoreDescLe (citMap results)).mem_iff.mp hc)

/-- First result of source `S2`: low score, carries the identity fields. -/
def resultFirst : SearchResult :=
  { id := "A1", content := "a"
    metadata := { source := "S2", sourceType := .localFile, title := some "first title" }
    score := mkRat 1 2 }

/-- Later result of the same source with a strictly higher score. -/
def resultSecond : SearchResult :=
  { id := "A2", content := "b"
    metadata := { source := "S2", sourceType := .localFile, title := some "second title" }
    score := mkRat 9 10 }

/-- The citation `[resultFirst, resultSecond]` produces: identity from the
first result, score from the second. -/
def citationFirstSecond : Citation :=
  { id := "A1", source := "S2", sourceType := .localFile
    title := some "first title", relevanceScore := mkRat 9 10 }

/-- Witness for `citation_identity_first_occurrence`. -/
theorem citation_identity_first_occurrence_witness :
    ∃ r, [resultFirst, resultSecond].find?
        (fun x => decide (x.metadata.source = citationFirstSecond.source)) = some r ∧
      citationFirstSecond.id = r.id ∧ citationFirstSecond.title = r.metadata.title ∧
      citationFirstSecond.url = r.metadata.url ∧
      citationFirstSecond.sourceType = r.metadata.sourceType ∧
      citationFirstSecond.source = r.metadata.source :=
  citation_identity_first_occurrence [resultFirst, resultSecond]
    citationFirstSecond (by decide)

/-! ## Claim C4 — the minScore threshold invariant -/

theorem mapInsertResult_val_mem (m : List (String × SearchResult)) (r : SearchResult) :
    ∀ p ∈ mapInsertResult m r, p.2 = r ∨ p.2 ∈ m.map (fun q => q.2) := by
  intro p hp
  unfold mapInsertResult at hp
  by_cases hc : (m.any fun p0 => decide (p0.1 = r.id)) = true
  · rw [if_pos hc] at hp
    rcases List.mem_map.mp hp with ⟨q0, hq0, hqdef⟩
    by_cases h0 : q0.1 = r.id
    · rw [if_pos h0] at hqdef
      left
      rw [← hqdef]
    · rw [if_neg h0] at hqdef
      right
      exact List.mem_map.mpr ⟨q0, hq0, by rw [← hqdef]⟩
  · rw [if_neg hc] at hp
    rcases List.mem_append.mp hp with hp1 | hp1
    · right
      exact List.mem_map.mpr ⟨p, hp1, rfl⟩
    · left
      rw [List.mem_singleton.mp hp1]

/-- Every value surviving the id-keyed Map dedup came from the input list. -/
theorem dedupById_subset (l : List SearchResult) :
    ∀ x ∈ dedupById l, x ∈ l := by
  suffices h : ∀ (m : List (String × SearchResult)) (x : SearchResult),
      x ∈ (l.foldl mapInsertResult m).map (fun q => q.2) →
      x ∈ m.map (fun q => q.2) ∨ x ∈ l by
    intro x hx
    rcases h [] x (by simpa [dedupById] using hx) with h1 | h1
    · simp at h1
    · exact h1
  induction l with
  | nil =>
    intro m x hx
    exact Or.inl hx
  | cons r t ih =>
    intro m x hx
    rcases ih (mapInsertResult m r) x hx with h1 | h1
    · rcases List.mem_map.mp h1 with ⟨p, hp, hval⟩
      rcases mapInsertResult_val_mem m r p hp with h2 | h2
      · right
        exact List.mem_cons.mpr (Or.inl (by rw [← hval, h2]))
      · left
        rcases List.mem_map.mp h2 with ⟨q0, hq0, hq0val⟩
        exact List.mem_map.mpr ⟨q0, hq0, by rw [hq0val, hval]⟩
    · right
      exact List.mem_cons_of_mem r h1

/-- Every result of a single-query retrieval passed the minScore filter. -/
theorem retrieve_results_minScore (idx : SearchIndex) (q : String)
    (opts : RetrieveOptions) :
    ∀ r ∈ (retrieve idx q opts).results, opts.minScore.getD (mkRat 3 10) ≤ r.score := by
  intro r hr
  simp only [retrieve] at hr
  exact decide_eq_true_iff.mp (List.mem_filter.mp hr).2

/-- Claim C4.  Every result in the Retrieval Context returned by `retrieve`,
`retrieveMultiple` or `retrieveWithExpansion` satisfies
`score >= minScore` (default 0.3): the per-query filter establishes it and
union, dedup, re-sort and truncation only ever drop results. -/
theorem retrieval_minScore_threshold (idx : SearchIndex) (opts : RetrieveOptions) :
    (∀ (q : String) (r : SearchResult), r ∈ (retrieve idx q opts).results →
        opts.minScore.getD (mkRat 3 10) ≤ r.score) ∧
    (∀ (queries : List String) (r : SearchResult),
        r ∈ (retrieveMultiple idx queries opts).results →
        opts.minScore.getD (mkRat 3 10) ≤ r.score) ∧
    (∀ (q : String) (expansions : List String) (r : SearchResult),
        r ∈ (retrieveWithExpansion idx q expansions opts).results →
        opts.minScore.getD (mkRat 3 10) ≤ r.score) := by
  refine ⟨fun q => retrieve_results_minScore idx q opts, ?_, ?_⟩
  · intro queries r hr
    simp only [retrieveMultiple] at hr
    have h1 := List.take_subset _ _ hr
    have h2 := (mem_stableSortBy scoreDescLe r _).mp h1
    have h3 := dedupById_subset _ r h2
    rcases List.mem_flatten.mp h3 with ⟨res, hres, hrres⟩
    rcases List.mem_map.mp hres with ⟨ctx, hctx, rfl⟩
    rcases List.mem_map.mp hctx with ⟨q, _, rfl⟩
    exact retrieve_results_minScore idx q opts r hrres
  · intro q expansions r hr
    simp only [retrieveWithExpansion] at hr
    have h1 := List.take_subset _ _ hr
    have h2 := (mem_stableSortBy scoreDescLe r _).mp h1
    have h3 := dedupById_subset _ r h2
    rcases List.mem_flatten.mp h3 with ⟨res, hres, hrres⟩
    rcases List.mem_map.mp hres with ⟨ctx, hctx, rfl⟩
    rcases List.mem_cons.mp hctx with hctx1 | hctx1
    · rw [hctx1] at hrres
      exact retrieve_results_minScore idx q opts r hrres
    · rcases List.mem_map.mp hctx1 with ⟨e, _, rfl⟩
      exact retrieve_results_minScore idx e { opts with limit := some 5 } r hrres

/-- Witness for `retrieval_minScore_threshold`. -/
theorem retrieval_minScore_threshold_witness :
    (mkRat 3 10 : ℚ) ≤ chunkX90.score :=
  (retrieval_minScore_threshold limitedIndex {}).1 "primary" chunkX90 (by decide)

/-! ## Claim C5 — the limit invariant -/

/-- Claim C5, counterexample.  With an index that honours the at-most-`limit`
search contract, `retrieveWithExpansion` called with `limit = 0` still
returns a result: the truncation uses `options.limit || 10`, and `0` is falsy
in JS, so the bound applied is the default 10 while the expansion sub-queries
(fixed sub-limit 5) keep supplying results — `len(results) <= limit` fails. -/
theorem retrieveWithExpansion_zero_limit_exceeds :
    ¬ (retrieveWithExpansion limitedIndex "primary" ["exp"]
        { limit := some 0 }).results.length ≤ 0 := by
  decide

/-- Claim C5, amended.  `len(results)` is bounded by the EFFECTIVE limit:
for `retrieve` exactly `limit` (default 10, provided the index honours the
at-most-`limit` search contract); for `retrieveMultiple` and
`retrieveWithExpansion` the truncation treats a zero `limit` like an absent
one (JS `||`), so the bound is `limit` when positive and the default 15
respectively 10 otherwise; each expansion sub-query is retrieved with the
fixed sub-limit 5. -/
theorem retrieval_limit_bound (idx : SearchIndex) (opts : RetrieveOptions)
    (hsearch : ∀ (q : String) (n : Nat) (f : Option (List SourceType)),
      (idx.search q n f).length ≤ n) :
    (∀ q : String, (retrieve idx q opts).results.length ≤ opts.limit.getD 10) ∧
    (∀ queries : List String,
      (retrieveMultiple idx queries opts).results.length ≤ jsOrNat opts.limit 15) ∧
    (∀ (q : String) (expansions : List String),
      (retrieveWithExpansion idx q expansions opts).results.length ≤ jsOrNat opts.limit 10) ∧
    (∀ e : String,
      (retrieve idx e { opts with limit := some 5 }).results.length ≤ 5) := by
  have hret : ∀ (q : String) (o : RetrieveOptions),
      (retrieve idx q o).results.length ≤ o.limit.getD 10 := by
    intro q o
    simp only [retrieve]
    exact le_trans (List.length_filter_le _ _) (hsearch q _ _)
  refine ⟨fun q => hret q opts, ?_, ?_, fun e => hret e { opts with limit := some 5 }⟩
  · intro queries
    simp only [retrieveMultiple]
    rw [List.length_take]
    exact min_le_left _ _
  · intro q expansions
    simp only [retrieveWithExpansion]
    rw [List.length_take]
    exact min_le_left _ _

/-- Witness for `retrieval_limit_bound`. -/
theorem retrieval_limit_bound_witness :
    (retrieve limitedIndex "primary" {}).results.length ≤ 10 :=
  (retrieval_limit_bound limitedIndex {} (fun q n f => by
      show ((if q = "primary" then [chunkX90]
             else if q = "exp" then [chunkX85, chunkY60]
             else []).take n).length ≤ n
      rw [List.length_take]
      exact min_le_left _ _)).1 "primary"

/-! ## Claim C7 — context formatting -/

/-- First-seen deduplication (the key set of an insertion-ordered `Map`). -/
def dedupFirstAux : List String → List String → List String
  | acc, [] => acc
  | acc, s :: rest =>
    if s ∈ acc then dedupFirstAux acc rest else dedupFirstAux (acc ++ [s]) rest

/-- The distinct source ids of the ranked input, in first-seen order — the
iteration order of `groupedResults`. -/
def firstSeenSources (results : List SearchResult) : List String :=
  dedupFirstAux [] (results.map (fun r => r.metadata.source))

theorem dedupFirstAux_append_singleton (l : List String) (s : String) :
    ∀ acc, dedupFirstAux acc (l ++ [s]) =
      (if s ∈ dedupFirstAux acc l then dedupFirstAux acc l
       else dedupFirstAux acc l ++ [s]) := by
  induction l with
  | nil =>
    intro acc
    simp [dedupFirstAux]
  | cons t rest ih =>
    intro acc
    by_cases ht : t ∈ acc
    · simp only [List.cons_append, dedupFirstAux, if_pos ht]
      exact ih acc
    · simp only [List.cons_append, dedupFirstAux, if_neg ht]
      exact ih (acc ++ [t])

theorem mem_dedupFirstAux (l : List String) :
    ∀ (acc : List String) (s : String), s ∈ dedupFirstAux acc l ↔ s ∈ acc ∨ s ∈ l := by
  induction l with
  | nil =>
    intro acc s
    simp [dedupFirstAux]
  | cons t rest ih =>
    intro acc s
    by_cases ht : t ∈ acc
    · simp only [dedupFirstAux, if_pos ht]
      rw [ih acc s]
      constructor
      · rintro (h | h)
        · exact Or.inl h
        · exact Or.inr (List.mem_cons_of_mem t h)
      · rintro (h | h)
        · exact Or.inl h
        · rcases List.mem_cons.mp h with h2 | h2
          · exact Or.inl (h2 ▸ ht)
          · exact Or.inr h2
    · simp only [dedupFirstAux, if_neg ht]
      rw [ih (acc ++ [t]) s]
      rw [List.mem_append, List.mem_singleton, List.mem_cons]
      tauto

/-- The insertion-ordered `Map<string, SearchResult[]>` built by
`formatContext` holds, for each first-seen source in order, exactly the
input results of that source in input order. -/
theorem groupBySource_eq (results : List SearchResult) :
    groupBySource results =
      (firstSeenSources results).map
        (fun s => (s, results.filter (fun r => decide (r.metadata.source = s)))) := by
  induction results using List.reverseRecOn with
  | nil => rfl
  | append_singleton rs r ih =>
    have hstep : groupBySource (rs ++ [r]) = groupInsert (groupBySource rs) r := by
      unfold groupBySource
      rw [List.foldl_append]
      rfl
    have hsrc : firstSeenSources (rs ++ [r]) =
        (if r.metadata.source ∈ firstSeenSources rs then firstSeenSources rs
         else firstSeenSources rs ++ [r.metadata.source]) := by
      unfold firstSeenSources
      rw [List.map_append]
      exact dedupFirstAux_append_singleton _ _ []
    have hmemF : ∀ s, s ∈ firstSeenSources rs ↔ ∃ x ∈ rs, x.metadata.source = s := by
      intro s
      unfold firstSeenSources
      rw [mem_dedupFirstAux _ [] s]
      simp [List.mem_map]
    rw [hstep, ih, hsrc]
    by_cases hin : r.metadata.source ∈ firstSeenSources rs
    · have hany : ((firstSeenSources rs).map
          (fun s => (s, rs.filter (fun x => decide (x.metadata.source = s))))).any
            (fun p => decide (p.1 = r.metadata.source)) = true := by
        rw [List.any_eq_true]
        exact ⟨_, List.mem_map.mpr ⟨r.metadata.source, hin, rfl⟩, by simp⟩
      unfold groupInsert
      rw [if_pos hany, if_pos hin, List.map_map]
      apply List.map_congr_left
      intro s hs
      simp only [Function.comp_apply]
      by_cases hseq : s = r.metadata.source
      · rw [if_pos hseq, List.filter_append]
        have : (decide (r.metadata.source = s)) = true := decide_eq_true_iff.mpr hseq.symm
        simp [this]
      · rw [if_neg hseq, List.filter_append]
        have : (decide (r.metadata.source = s)) = false := by
          rw [decide_eq_false_iff_not]
          exact fun h => hseq h.symm
        simp [this]
    · have hanyneg : ¬ (((firstSeenSources rs).map
          (fun s => (s, rs.filter (fun x => decide (x.metadata.source = s))))).any
            (fun p => decide (p.1 = r.metadata.source)) = true) := by
        rw [List.any_eq_true]
        rintro ⟨p, hp, hps⟩
        rcases List.mem_map.mp hp with ⟨s, hs, rfl⟩
        have hseq : s = r.metadata.source := by simpa using hps
        exact hin (hseq ▸ hs)
      unfold groupInsert
      rw [if_neg hanyneg, if_neg hin, List.map_append]
      congr 1
      · apply List.map_congr_left
        intro s hs
        rw [List.filter_append]
        have : (decide (r.metadata.source = s)) = false := by
          rw [decide_eq_false_iff_not]
          intro h
          exact hin (by rw [h]; exact hs)
        simp [this]
      · have hnil : rs.filter
            (fun x => decide (x.metadata.source = r.metadata.source)) = [] := by
          rw [List.filter_eq_nil_iff]
          intro x hx
          rw [decide_eq_true_iff]
          intro h
          exact hin ((hmemF _).mpr ⟨x, hx, h⟩)
        rw [List.map_cons, List.map_nil, List.filter_append, hnil]
        simp

/-- Context formatting exactly as the claim describes it: the groups are the
distinct source ids in first-seen order of the ranked input, each group holds
all results of its source, and `formatSection` renders a group with its chunk
texts sorted ascending by stored chunk index, blank-line-joined, groups being
joined by the visible `---` separator. -/
def formatContextSpec (results : List SearchResult) : String :=
  joinSep "\n\n---\n\n"
    ((firstSeenSources results).map
      (fun s => formatSection s (results.filter (fun r => decide (r.metadata.source = s)))))

/-- Claim C7.  On every non-empty ranked input, `formatContext` renders the
results grouped by source id in first-seen order (a group opens at the first
sighting of its source), and within each group the chunk texts appear in
ascending stored-chunk-index order (blank-line-joined, separator-joined
groups): the code's output equals the claim-shaped rendering, whose per-group
chunk-index sequence is sorted. -/
theorem formatContext_grouping (results : List SearchResult) (hne : results ≠ []) :
    formatContext results = formatContextSpec results ∧
    ∀ s : String,
      List.Sorted (· ≤ ·)
        ((stableSortBy chunkIndexLe
            (results.filter (fun r => decide (r.metadata.source = s)))).map
          (fun r => r.metadata.chunkIndex)) := by
  constructor
  · unfold formatContext
    rw [if_neg (fun h => hne (List.length_eq_zero.mp h))]
    rw [groupBySource_eq, List.map_map]
    rfl
  · intro s
    have hp := pairwise_stableSortBy chunkIndexLe chunkIndexLe_trans chunkIndexLe_total
      (results.filter (fun r => decide (r.metadata.source = s)))
    refine List.pairwise_map.mpr (hp.imp ?_)
    intro a b hab
    exact decide_eq_true_iff.mp hab

/-- Witness for `formatContext_grouping`. -/
theorem formatContext_grouping_witness :
    formatContext [chunkX90] = formatContextSpec [chunkX90] :=
  (formatContext_grouping [chunkX90] (by decide)).1
